import Mathlib

/-!
Verification of the guest address-space subsystem: a shallow embedding of
the region tree, the flat-view renderer, the byte-level read and write
paths, the sub-region list maintenance, the io-eventfd ordering, and the
file backend, together with theorems checking the stated properties.

Machine integers are modelled as `Nat`; the 64-bit overflow checks of the
source are made explicit against `2 ^ 64` where the source performs a
checked addition.  Host memory behind a RAM region is modelled by the list
of bytes it holds; the OS file descriptor inside an eventfd and the device
object behind an MMIO region are modelled by their observable behaviour.
-/

/-- Upper bound of the unsigned 64-bit range: the checked additions of the
source fail exactly when the mathematical sum reaches this bound. -/
def U64_BOUND : Nat := 2 ^ 64

/-- Checked 64-bit addition: `some (a + b)` unless the sum overflows u64. -/
def u64_checked_add (a b : Nat) : Option Nat :=
  if a + b < U64_BOUND then some (a + b) else none

/-- Modelled from the spec: `AddressRange` is a pair of a base guest
address and a size, denoting the half-open interval from the base to the
base plus the size.  The type itself lives in the shared-types module of
the crate, which is not among the provided sources. -/
structure AddressRange where
  base : Nat
  size : Nat
deriving DecidableEq, Repr

/-- Modelled from the spec: the end (one past the last byte) of a range. -/
def AddressRange.end_addr (r : AddressRange) : Nat := r.base + r.size

/-- Modelled from the spec: intersection of two half-open ranges, `none`
when the intersection is empty. -/
def AddressRange.find_intersection (a b : AddressRange) : Option AddressRange :=
  if max a.base b.base < min a.end_addr b.end_addr then
    some ⟨max a.base b.base, min a.end_addr b.end_addr - max a.base b.base⟩
  else none

/-- Eventfd declared by an MMIO region.  The OS event descriptor itself
carries no ordering-relevant data (the source comparison never reads it,
and cloning merely duplicates the descriptor), so it is not modelled. -/
structure RegionIoEventFd where
  addr_range : AddressRange
  data_match : Bool
  data : Nat
deriving DecidableEq, Repr

/-- Embedding of `RegionIoEventFd::before`: lexicographic comparison of
base, then size, then data-match flag (true first), then data. -/
def RegionIoEventFd.before (a b : RegionIoEventFd) : Bool :=
  if a.addr_range.base != b.addr_range.base then
    decide (a.addr_range.base < b.addr_range.base)
  else if a.addr_range.size != b.addr_range.size then
    decide (a.addr_range.size < b.addr_range.size)
  else if a.data_match != b.data_match then
    a.data_match && !b.data_match
  else if a.data != b.data then
    decide (a.data < b.data)
  else
    false

/-- Embedding of `RegionIoEventFd::try_clone`: all modelled fields are
copied; duplication of the OS descriptor is outside the model. -/
def RegionIoEventFd.try_clone (e : RegionIoEventFd) : RegionIoEventFd := e

/-- Device operations behind an MMIO region (the `RegionOps` trait
object).  A read yields the bytes served, or `none` when the device
reports failure; a write yields the device acceptance flag (the device
mutates only its own internal state, which the region model does not
observe); the eventfd list is the set the device reports. -/
structure DevOps where
  dev_read : Nat → Nat → Nat → Option (List Nat)
  dev_write : List Nat → Nat → Nat → Bool
  dev_ioeventfds : List RegionIoEventFd

/-- Types of Region, as in the source (the MMIO constructor is named `Io`
here). -/
inductive RegionType where
  | Ram
  | Io
  | Container
deriving DecidableEq, Repr

/-- Error kinds surfaced by the subsystem.  `NoIntersection` models the
"region exceeds" bail of the renderer (carrying the absolute region base
printed by the message), `NoMatchedRegion` the "no matched region" bail of
subregion deletion, and `IoError` a short source stream. -/
inductive AsError where
  | Overflow (v : Nat)
  | IoAccess (offset : Nat)
  | RegionTypeErr (t : RegionType)
  | NoIntersection (region_base : Nat)
  | NoMatchedRegion
  | IoError
deriving DecidableEq, Repr

/-- A node of the guest-address tree.  Fields, in order: region type,
priority, size, offset in the parent, RAM backing bytes (the content of
the host memory mapping, present iff RAM), device operations (present iff
MMIO), and the ordered sub-region list (non-empty only for containers).
The weak back-link to the owning address space is not modelled: every
tree in this development is detached, the case in which the source skips
the topology-update callback. -/
inductive Region where
  | mk : RegionType → Int → Nat → Nat → Option (List Nat) → Option DevOps →
      List Region → Region

/-- Type of a region. -/
def Region.region_type : Region → RegionType
  | .mk rt _ _ _ _ _ _ => rt

/-- Priority of a region (an i32 in the source). -/
def Region.priority : Region → Int
  | .mk _ p _ _ _ _ _ => p

/-- Size of a region. -/
def Region.size : Region → Nat
  | .mk _ _ s _ _ _ _ => s

/-- Offset of a region within its parent. -/
def Region.offset : Region → Nat
  | .mk _ _ _ o _ _ _ => o

/-- Bytes of the host memory mapping backing a RAM region. -/
def Region.mem_mapping : Region → Option (List Nat)
  | .mk _ _ _ _ m _ _ => m

/-- Device operations of an MMIO region. -/
def Region.ops : Region → Option DevOps
  | .mk _ _ _ _ _ o _ => o

/-- Sub-regions of a region. -/
def Region.subregions : Region → List Region
  | .mk _ _ _ _ _ _ l => l

/-- Embedding of `Region::set_priority` (state passing instead of the
atomic store). -/
def Region.set_priority : Region → Int → Region
  | .mk rt _ s o m d l, p => .mk rt p s o m d l

/-- Embedding of `Region::set_offset` (state passing instead of the
locked store). -/
def Region.set_offset : Region → Nat → Region
  | .mk rt p s _ m d l, o => .mk rt p s o m d l

/-- Replace the sub-region list (the write through the interior lock). -/
def Region.with_subregions : Region → List Region → Region
  | .mk rt p s o m d _, l => .mk rt p s o m d l

/-- Embedding of `Region::init_region_internal`: priority 0, offset 0,
empty sub-region list. -/
def Region.init_region_internal (size : Nat) (rt : RegionType)
    (mm : Option (List Nat)) (dev : Option DevOps) : Region :=
  .mk rt 0 size 0 mm dev []

/-- Embedding of `Region::init_ram_region`: the size is taken from the
mapping, here the length of its byte list. -/
def Region.init_ram_region (mem : List Nat) : Region :=
  Region.init_region_internal mem.length .Ram (some mem) none

/-- Embedding of `Region::init_io_region`. -/
def Region.init_io_region (size : Nat) (dev : DevOps) : Region :=
  Region.init_region_internal size .Io none (some dev)

/-- Embedding of `Region::init_container_region`. -/
def Region.init_container_region (size : Nat) : Region :=
  Region.init_region_internal size .Container none none

/-- Embedding of `Region::check_valid_offset`: checked 64-bit addition of
the start address and the access size, filtered by the region size. -/
def Region.check_valid_offset (r : Region) (addr size : Nat) :
    Except AsError Unit :=
  match (u64_checked_add addr size).filter (fun e => decide (e ≤ r.size)) with
  | none => .error (.Overflow addr)
  | some _ => .ok ()

/-- Largest usize value on the 64-bit host, against which the MMIO paths
guard the buffer allocation. -/
def USIZE_MAX : Nat := 2 ^ 64 - 1

/-- Embedding of `Region::read`.  The destination sink is modelled by the
returned byte list (writing into an in-memory sink cannot fail).  A RAM
region serves bytes `[offset, offset + count)` of its mapping; an MMIO
region asks the device; a container fails. -/
def Region.read (r : Region) (base offset count : Nat) :
    Except AsError (List Nat) :=
  match r.check_valid_offset offset count with
  | .error e => .error e
  | .ok _ =>
    match r with
    | .mk rt _ _ _ mm dev _ =>
      match rt with
      | .Ram => .ok (((mm.getD []).drop offset).take count)
      | .Io =>
        if USIZE_MAX ≤ count then .error (.Overflow count)
        else
          match dev with
          | none => .error (.IoAccess offset)
          | some d =>
            match d.dev_read count base offset with
            | some bytes => .ok bytes
            | none => .error (.IoAccess offset)
      | .Container => .error (.RegionTypeErr .Container)

/-- Embedding of `Region::write`.  The source stream is modelled by the
byte list `src`; `read_exact` on it fails when it holds fewer than
`count` bytes.  A RAM region overwrites bytes `[offset, offset + count)`
of its mapping; an MMIO region hands the bytes to the device; a container
fails. -/
def Region.write (r : Region) (src : List Nat) (base offset count : Nat) :
    Except AsError Region :=
  match r.check_valid_offset offset count with
  | .error e => .error e
  | .ok _ =>
    match r with
    | .mk rt p s o mm dev subs =>
      match rt with
      | .Ram =>
        if src.length < count then .error .IoError
        else
          .ok (.mk rt p s o
            (some ((mm.getD []).take offset ++ src.take count ++
              (mm.getD []).drop (offset + count))) dev subs)
      | .Io =>
        if USIZE_MAX ≤ count then .error (.Overflow count)
        else if src.length < count then .error .IoError
        else
          match dev with
          | none => .error (.IoAccess offset)
          | some d =>
            if d.dev_write (src.take count) base offset then
              .ok (.mk rt p s o mm dev subs)
            else .error (.IoAccess offset)
      | .Container => .error (.RegionTypeErr .Container)

/-- Embedding of `Region::ioeventfds`: empty unless MMIO; for MMIO, a
clone of every device eventfd with the base shifted by the region
offset. -/
def Region.ioeventfds (r : Region) : List RegionIoEventFd :=
  match r.region_type with
  | .Io =>
    ((r.ops.getD ⟨fun _ _ _ => none, fun _ _ _ => false, []⟩).dev_ioeventfds).map
      (fun e =>
        { e.try_clone with
          addr_range := ⟨e.addr_range.base + r.offset, e.addr_range.size⟩ })
  | _ => []

/-- The insertion scan of `Region::add_subregion`: advance while the new
child has strictly smaller priority, insert before the first incumbent
whose priority is less than or equal to the child priority. -/
def Region.insert_by_priority (child : Region) : List Region → List Region
  | [] => [child]
  | s :: rest =>
    if s.priority ≤ child.priority then child :: s :: rest
    else s :: Region.insert_by_priority child rest

/-- Embedding of `Region::add_subregion`.  The back-link propagation and
the topology-update callback concern the (unmodelled, absent) owning
address space; on a detached tree the source performs neither. -/
def Region.add_subregion (r child : Region) (offset : Nat) :
    Except AsError Region :=
  if r.region_type ≠ .Container then .error (.RegionTypeErr r.region_type)
  else
    match r.check_valid_offset offset child.size with
    | .error e => .error e
    | .ok _ =>
      .ok (r.with_subregions
        (Region.insert_by_priority (child.set_offset offset) r.subregions))

/-- Embedding of the `PartialEq` implementation for `Region`: two regions
compare equal exactly when priority, type, offset and size agree. -/
def Region.region_eq (a b : Region) : Bool :=
  a.priority == b.priority && a.region_type == b.region_type &&
    a.offset == b.offset && a.size == b.size

/-- The removal scan of `Region::delete_subregion`: drop the first
element equal (under `Region.region_eq`) to the child, `none` when no
element matches. -/
def Region.remove_first (child : Region) : List Region → Option (List Region)
  | [] => none
  | s :: rest =>
    if Region.region_eq child s then some rest
    else (Region.remove_first child rest).map (fun l => s :: l)

/-- Embedding of `Region::delete_subregion`: linear scan by region
equality, failure when nothing matched. -/
def Region.delete_subregion (r child : Region) : Except AsError Region :=
  match Region.remove_first child r.subregions with
  | some subs => .ok (r.with_subregions subs)
  | none => .error .NoMatchedRegion

/-- A piece of continuous guest memory in the flat view: the absolute
address range, the owning (non-container) region, and the byte offset of
the piece within the owner. -/
structure FlatRange where
  addr_range : AddressRange
  owner : Region
  offset_in_region : Nat

/-- The while-loop of `Region::render_terminate_region`, as a recursion
over the flat-view list.  `start` is the cursor into the clipped leaf
range, `offset_in_region` the byte distance of the cursor from the leaf
base, `remain` the bytes still to place.  Already-present ranges shadow
the candidate; gaps before them are filled; a final non-empty tail is
appended. -/
def merge_flat_range (owner : Region) (start offset_in_region remain : Nat) :
    List FlatRange → List FlatRange
  | [] =>
    if remain = 0 then []
    else [⟨⟨start, remain⟩, owner, offset_in_region⟩]
  | fr :: rest =>
    if fr.addr_range.end_addr ≤ start then
      fr :: merge_flat_range owner start offset_in_region remain rest
    else
      let step := min (fr.addr_range.end_addr - start) remain
      if start < fr.addr_range.base then
        let range_size := min remain (fr.addr_range.base - start)
        let gap : FlatRange := ⟨⟨start, range_size⟩, owner, offset_in_region⟩
        if remain - step = 0 then gap :: fr :: rest
        else
          gap :: fr :: merge_flat_range owner (start + step)
            (offset_in_region + step) (remain - step) rest
      else
        if remain - step = 0 then fr :: rest
        else
          fr :: merge_flat_range owner (start + step)
            (offset_in_region + step) (remain - step) rest

/-- Embedding of `Region::render_terminate_region`: clip the absolute
leaf range against the window, fail when the intersection is empty,
otherwise merge the clipped range into the flat view. -/
def Region.render_terminate_region (r : Region) (base : Nat)
    (addr_range : AddressRange) (flat_view : List FlatRange) :
    Except AsError (List FlatRange) :=
  let region_range : AddressRange := ⟨base + r.offset, r.size⟩
  match region_range.find_intersection addr_range with
  | none => .error (.NoIntersection region_range.base)
  | some intersect =>
    .ok (merge_flat_range r intersect.base
      (intersect.base - region_range.base) intersect.size flat_view)

mutual

/-- Embedding of `Region::render_region_pass`: a container clips the
window against its absolute range (failing when disjoint) and renders its
children in sibling order into the accumulated flat view; a leaf renders
terminally. -/
def Region.render_region_pass (r : Region) (base : Nat)
    (addr_range : AddressRange) (flat_view : List FlatRange) :
    Except AsError (List FlatRange) :=
  match r with
  | .mk rt _ sz off _ _ subs =>
    match rt with
    | .Container =>
      match AddressRange.find_intersection ⟨base + off, sz⟩ addr_range with
      | none => .error (.NoIntersection (base + off))
      | some intersect =>
        Region.render_subregions subs (base + off) intersect flat_view
    | _ => r.render_terminate_region base addr_range flat_view

/-- The child loop of the container branch of
`Region::render_region_pass`: fold the render over the sibling list,
propagating the first error. -/
def Region.render_subregions (cs : List Region) (base : Nat)
    (addr_range : AddressRange) (flat_view : List FlatRange) :
    Except AsError (List FlatRange) :=
  match cs with
  | [] => .ok flat_view
  | c :: rest =>
    match c.render_region_pass base addr_range flat_view with
    | .error e => .error e
    | .ok fv => Region.render_subregions rest base addr_range fv

end

/-- Embedding of `Region::generate_flatview`: start from the empty flat
view and render the tree. -/
def Region.generate_flatview (r : Region) (base : Nat)
    (addr_range : AddressRange) : Except AsError (List FlatRange) :=
  match r.region_type with
  | .Container => r.render_region_pass base addr_range []
  | _ => r.render_terminate_region base addr_range []

/-- Shape of the path given to `FileBackend::new`: a directory, or a file
path that either does not exist yet or names an existing file of the
given length. -/
inductive PathKind where
  | dir
  | file (existing : Option Nat)
deriving DecidableEq, Repr

/-- Length the opened backing file has right after the open step of
`FileBackend::new`: a fresh unique temporary file inside a directory is
empty, a newly created file is empty, an existing file keeps its
length. -/
def PathKind.current_len : PathKind → Nat
  | .dir => 0
  | .file none => 0
  | .file (some l) => l

/-- File backend handle: the observable length of the backing file and
the rolling offset. -/
structure FileBackend where
  length : Nat
  offset : Nat
deriving DecidableEq, Repr

/-- Embedding of `FileBackend::new` over the filesystem model: open or
create the backing file, then set its length to `file_len` exactly when
the current length is zero; the offset starts at zero.  Host I/O
failures are environment conditions outside the model. -/
def FileBackend.new (path : PathKind) (file_len : Nat) : FileBackend :=
  let cur := path.current_len
  { length := if cur = 0 then file_len else cur, offset := 0 }

/-- Embedding of a sequence of `Region::add_subregion` calls: fold the
requests left to right, stopping at the first failure. -/
def Region.add_all (r : Region) : List (Region × Nat) → Except AsError Region
  | [] => .ok r
  | (c, off) :: rest =>
    match r.add_subregion c off with
    | .error e => .error e
    | .ok r2 => r2.add_all rest

/-- Chain predicate for flat views: every range starts at or after the
lower bound, has positive size, and ends at or before the start of the
next one.  It captures "strictly sorted by base and pairwise disjoint"
in a form suited to induction along the list. -/
def Chained : Nat → List FlatRange → Prop
  | _, [] => True
  | lb, fr :: rest =>
    lb ≤ fr.addr_range.base ∧ 0 < fr.addr_range.size ∧
      Chained fr.addr_range.end_addr rest

/-- Sibling lists sorted by descending priority. -/
def SortedDesc (l : List Region) : Prop :=
  List.Pairwise (fun a b => b.priority ≤ a.priority) l

/-- Device with no observable behaviour, standing in for the test devices
of the source whose read and write paths the rendering never calls. -/
def devNull : DevOps := ⟨fun _ _ _ => none, fun _ _ _ => false, []⟩

/-- Unwrap a region result known to be successful; used only to name the
intermediate regions of the concrete scenarios. -/
def okD (e : Except AsError Region) : Region :=
  match e with
  | .ok r => r
  | .error _ => Region.init_container_region 0

/-- Scenario S3, region C: MMIO of size 6000, priority 1. -/
def s3C : Region := (Region.init_io_region 6000 devNull).set_priority 1

/-- Scenario S3, region D: MMIO of size 1000. -/
def s3D : Region := Region.init_io_region 1000 devNull

/-- Scenario S3, region E: MMIO of size 1000. -/
def s3E : Region := Region.init_io_region 1000 devNull

/-- Scenario S3, container B of size 4000, priority 2, with D at offset 0
and E at offset 2000. -/
def s3B : Region :=
  okD ((okD (((Region.init_container_region 4000).set_priority 2).add_subregion
    s3D 0)).add_subregion s3E 2000)

/-- Scenario S3, container A of size 8000 with B at offset 2000 and C at
offset 0, built by the same insertion order as the source test. -/
def s3A : Region :=
  okD ((okD ((Region.init_container_region 8000).add_subregion s3B
    2000)).add_subregion s3C 0)

/-- Expected flat view of scenario S3: five ranges, owners carrying the
offsets the insertions assigned. -/
def s3_expected : List FlatRange :=
  [⟨⟨0, 2000⟩, s3C.set_offset 0, 0⟩,
   ⟨⟨2000, 1000⟩, s3D.set_offset 0, 0⟩,
   ⟨⟨3000, 1000⟩, s3C.set_offset 0, 3000⟩,
   ⟨⟨4000, 1000⟩, s3E.set_offset 2000, 0⟩,
   ⟨⟨5000, 1000⟩, s3C.set_offset 0, 5000⟩]

/-- Priority-tie scenario: first inserted sibling, MMIO of size 8,
priority 0. -/
def c4io1 : Region := Region.init_io_region 8 devNull

/-- Priority-tie scenario: second inserted sibling, MMIO of size 16,
priority 0. -/
def c4io2 : Region := Region.init_io_region 16 devNull

/-- Priority-tie scenario: the container after inserting `c4io1`. -/
def c4r1 : Region := okD ((Region.init_container_region 1024).add_subregion c4io1 0)

/-- Priority-tie scenario: the container after also inserting `c4io2`. -/
def c4r2 : Region := okD (c4r1.add_subregion c4io2 20)

/-- Deletion scenario (S5): first sibling, MMIO of size 16, priority 0. -/
def c6io1 : Region := Region.init_io_region 16 devNull

/-- Deletion scenario (S5): second sibling, MMIO of size 16, priority
10. -/
def c6io2 : Region := (Region.init_io_region 16 devNull).set_priority 10

/-- Deletion scenario (S5): container holding both siblings. -/
def c6cont : Region :=
  okD ((okD ((Region.init_container_region 1024).add_subregion c6io1
    0)).add_subregion c6io2 20)

/-- Deletion scenario (S5): the container after deleting `c6io2`. -/
def c6after : Region := okD (c6cont.delete_subregion (c6io2.set_offset 20))

/-- A 1024-byte RAM region of zeros, the region of scenarios S1 and
S2. -/
def s1ram : Region := Region.init_ram_region (List.replicate 1024 0)

/-- Device of the ioeventfd scenario: reports two eventfds. -/
def c10dev : DevOps :=
  ⟨fun _ _ _ => none, fun _ _ _ => false,
    [⟨⟨16, 4⟩, true, 7⟩, ⟨⟨0, 8⟩, false, 0⟩]⟩

/-- MMIO region of the ioeventfd scenario, placed at offset 256. -/
def c10r : Region := (Region.init_io_region 32 c10dev).set_offset 256

theorem check_valid_offset_eq (r : Region) (a c : Nat) :
    r.check_valid_offset a c =
      if a + c < U64_BOUND ∧ a + c ≤ r.size then .ok () else .error (.Overflow a) := by
  unfold Region.check_valid_offset u64_checked_add Option.filter
  by_cases h1 : a + c < U64_BOUND
  · by_cases h2 : a + c ≤ r.size <;> simp [h1, h2]
  · simp [h1]

/-- C5: the bounds check `check_valid_offset(offset, count)` succeeds
exactly when `offset + count` neither overflows u64 nor exceeds the
region size; on any violation, `Region::read` and `Region::write` fail
with `Overflow(offset)`; on the 1024-byte region, `(100, 1000)` is
rejected and `(0, 1000)` accepted. -/
theorem s1ram_size : s1ram.size = 1024 := by
  simp only [s1ram, Region.init_ram_region, Region.init_region_internal,
    Region.size, List.length_replicate]

theorem check_valid_offset_spec (r : Region) (src : List Nat) (b a c : Nat) :
    (r.check_valid_offset a c = .ok () ↔
      a + c < U64_BOUND ∧ a + c ≤ r.size) ∧
    (¬(a + c < U64_BOUND ∧ a + c ≤ r.size) →
      r.read b a c = .error (.Overflow a) ∧
      r.write src b a c = .error (.Overflow a)) ∧
    s1ram.check_valid_offset 100 1000 = .error (.Overflow 100) ∧
    s1ram.check_valid_offset 0 1000 = .ok () := by
  refine ⟨?_, ?_, ?_, ?_⟩
  · rw [check_valid_offset_eq]
    by_cases h : a + c < U64_BOUND ∧ a + c ≤ r.size <;> simp [h]
  · intro h
    constructor
    · unfold Region.read
      rw [check_valid_offset_eq]
      simp [h]
    · unfold Region.write
      rw [check_valid_offset_eq]
      simp [h]
  · rw [check_valid_offset_eq, s1ram_size]
    norm_num [U64_BOUND]
  · rw [check_valid_offset_eq, s1ram_size]
    norm_num [U64_BOUND]

/-- C5 witness: the theorem applied to the 1024-byte RAM region at the
out-of-bounds pair `(100, 1000)`. -/
theorem check_valid_offset_spec_witness :
    s1ram.read 0 100 1000 = .error (.Overflow 100) ∧
    s1ram.write [0] 0 100 1000 = .error (.Overflow 100) :=
  (check_valid_offset_spec s1ram [0] 0 100 1000).2.1
    (by rw [s1ram_size]; norm_num [U64_BOUND])

/-- C9: `FileBackend::new` sets the backing file length to `file_len`
exactly when the length found after opening is zero; an existing nonzero
length is kept unchanged (even when smaller than `file_len`), and the
returned offset is zero. -/
theorem file_backend_new_spec (p : PathKind) (file_len : Nat) :
    (FileBackend.new p file_len).offset = 0 ∧
    (p.current_len = 0 → (FileBackend.new p file_len).length = file_len) ∧
    (p.current_len ≠ 0 → (FileBackend.new p file_len).length = p.current_len) ∧
    (∀ l, l ≠ 0 →
      (FileBackend.new (.file (some l)) file_len).length = l) := by
  refine ⟨rfl, ?_, ?_, ?_⟩
  · intro h; simp [FileBackend.new, h]
  · intro h; simp [FileBackend.new, h]
  · intro l h; simp [FileBackend.new, PathKind.current_len, h]

/-- C9 witness: the theorem applied to an existing 50-byte file opened
with a requested length of 100; the length stays 50. -/
theorem file_backend_new_spec_witness :
    (FileBackend.new (.file (some 50)) 100).length = 50 ∧
    (FileBackend.new (.file (some 50)) 100).offset = 0 :=
  ⟨(file_backend_new_spec (.file (some 50)) 100).2.2.2 50 (by decide),
   (file_backend_new_spec (.file (some 50)) 100).1⟩

/-- C10: a RAM or container region reports no ioeventfds; an MMIO region
reports one clone per device eventfd, in device order, with the base
shifted by the region offset and size, data-match flag and data
unchanged. -/
theorem region_ioeventfds_spec (r : Region) (d : DevOps) :
    (r.region_type = .Ram ∨ r.region_type = .Container → r.ioeventfds = []) ∧
    (r.region_type = .Io → r.ops = some d →
      r.ioeventfds.length = d.dev_ioeventfds.length ∧
      ∀ i (hi : i < r.ioeventfds.length) (hd : i < d.dev_ioeventfds.length),
        r.ioeventfds.get ⟨i, hi⟩ =
          ⟨⟨(d.dev_ioeventfds.get ⟨i, hd⟩).addr_range.base + r.offset,
            (d.dev_ioeventfds.get ⟨i, hd⟩).addr_range.size⟩,
            (d.dev_ioeventfds.get ⟨i, hd⟩).data_match,
            (d.dev_ioeventfds.get ⟨i, hd⟩).data⟩) := by
  constructor
  · intro h
    unfold Region.ioeventfds
    rcases h with h | h <;> rw [h]
  · intro ht hops
    unfold Region.ioeventfds
    rw [ht, hops]
    constructor
    · simp
    · intro i hi hd
      simp [RegionIoEventFd.try_clone]

/-- C10 witness: the theorem applied to the MMIO region at offset 256
whose device reports two eventfds, at index 0. -/
theorem region_ioeventfds_spec_witness :
    c10r.ioeventfds.get ⟨0, by decide⟩ = ⟨⟨272, 4⟩, true, 7⟩ :=
  (region_ioeventfds_spec c10r c10dev).2 rfl rfl |>.2 0 (by decide) (by decide)

theorem before_iff (x y : RegionIoEventFd) :
    x.before y = true ↔
      (x.addr_range.base < y.addr_range.base ∨
        (x.addr_range.base = y.addr_range.base ∧
          (x.addr_range.size < y.addr_range.size ∨
            (x.addr_range.size = y.addr_range.size ∧
              ((x.data_match = true ∧ y.data_match = false) ∨
                (x.data_match = y.data_match ∧ x.data < y.data)))))) := by
  unfold RegionIoEventFd.before
  by_cases h1 : x.addr_range.base = y.addr_range.base
  · by_cases h2 : x.addr_range.size = y.addr_range.size
    · by_cases h3 : x.data_match = y.data_match
      · by_cases h4 : x.data = y.data <;>
          simp [h1, h2, h3, h4]
      · cases hx : x.data_match <;> cases hy : y.data_match <;>
          simp_all [h1, h2]
    · simp [h1, h2]
  · simp [h1]

/-- C8: `RegionIoEventFd::before` is an irreflexive, asymmetric,
transitive comparison that is total (two mutually incomparable eventfds
are equal), determined lexicographically by base, size, data-match flag
(true first) and data; with equal base 1000, the size-4 eventfd sorts
before the size-8 one. -/
theorem ioeventfd_before_strict_total_order (x y z : RegionIoEventFd) :
    x.before x = false ∧
    (x.before y = true → y.before z = true → x.before z = true) ∧
    (x.before y = true → y.before x = false) ∧
    (x.before y = false → y.before x = false → x = y) ∧
    (⟨⟨1000, 4⟩, false, 0⟩ : RegionIoEventFd).before ⟨⟨1000, 8⟩, false, 0⟩ =
      true := by
  refine ⟨?_, ?_, ?_, ?_, by decide⟩
  · rw [← Bool.not_eq_true, before_iff]
    simp
  · rw [before_iff, before_iff, before_iff]
    intro h1 h2
    rcases h1 with h1 | ⟨e1, h1⟩ <;> rcases h2 with h2 | ⟨e2, h2⟩
    · exact Or.inl (lt_trans h1 h2)
    · exact Or.inl (e2 ▸ h1)
    · exact Or.inl (e1 ▸ h2)
    · refine Or.inr ⟨e1.trans e2, ?_⟩
      rcases h1 with h1 | ⟨f1, h1⟩ <;> rcases h2 with h2 | ⟨f2, h2⟩
      · exact Or.inl (lt_trans h1 h2)
      · exact Or.inl (f2 ▸ h1)
      · exact Or.inl (f1 ▸ h2)
      · refine Or.inr ⟨f1.trans f2, ?_⟩
        rcases h1 with ⟨a1, b1⟩ | ⟨g1, h1⟩ <;>
          rcases h2 with ⟨a2, b2⟩ | ⟨g2, h2⟩
        · rw [b1] at a2
          exact absurd a2 (by simp)
        · exact Or.inl ⟨a1, g2 ▸ b1⟩
        · exact Or.inl ⟨g1 ▸ a2, b2⟩
        · exact Or.inr ⟨g1.trans g2, lt_trans h1 h2⟩
  · intro h
    rw [← Bool.not_eq_true, before_iff]
    rw [before_iff] at h
    intro h2
    rcases h with h | ⟨e1, h⟩ <;> rcases h2 with h2 | ⟨e2, h2⟩
    · omega
    · omega
    · omega
    · rcases h with h | ⟨f1, h⟩ <;> rcases h2 with h2 | ⟨f2, h2⟩
      · omega
      · omega
      · omega
      · rcases h with ⟨a1, b1⟩ | ⟨g1, h⟩ <;>
          rcases h2 with ⟨a2, b2⟩ | ⟨g2, h2⟩
        · simp_all
        · simp_all
        · simp_all
        · omega
  · intro h1 h2
    rw [← Bool.not_eq_true, before_iff] at h1 h2
    push_neg at h1 h2
    obtain ⟨xr, xm, xd⟩ := x
    obtain ⟨yr, ym, yd⟩ := y
    obtain ⟨xb, xs⟩ := xr
    obtain ⟨yb, ys⟩ := yr
    simp only at h1 h2 ⊢
    have hb : xb = yb := by omega
    subst hb
    have hs : xs = ys := by omega
    subst hs
    have h1m := (h1.2 rfl).2 rfl
    have h2m := (h2.2 rfl).2 rfl
    cases xm <;> cases ym <;> simp_all <;> omega

/-- C8 witness: transitivity applied through the data-match comparison at
base 1000, and irreflexivity at a concrete eventfd. -/
theorem ioeventfd_before_strict_total_order_witness :
    (⟨⟨1000, 4⟩, true, 0⟩ : RegionIoEventFd).before ⟨⟨1000, 8⟩, false, 5⟩ =
      true ∧
    (⟨⟨1000, 4⟩, true, 0⟩ : RegionIoEventFd).before ⟨⟨1000, 4⟩, true, 0⟩ =
      false :=
  ⟨(ioeventfd_before_strict_total_order ⟨⟨1000, 4⟩, true, 0⟩
      ⟨⟨1000, 4⟩, false, 0⟩ ⟨⟨1000, 8⟩, false, 5⟩).2.1 (by decide) (by decide),
   (ioeventfd_before_strict_total_order ⟨⟨1000, 4⟩, true, 0⟩
      ⟨⟨1000, 4⟩, false, 0⟩ ⟨⟨1000, 8⟩, false, 5⟩).1⟩

/-- C3: on any RAM region (type RAM, size equal to the length of its
backing bytes), writing a byte sequence `s` at a valid offset `a` and
reading `s.length` bytes back from `a` returns exactly `s`. -/
theorem ram_write_read_round_trip (r : Region) (mem s : List Nat) (a : Nat)
    (hrt : r.region_type = .Ram) (hmm : r.mem_mapping = some mem)
    (hsz : r.size = mem.length) (hb : a + s.length ≤ mem.length)
    (hu : mem.length < U64_BOUND) :
    (r.write s 0 a s.length).bind (fun r2 => r2.read 0 a s.length) =
      .ok s := by
  obtain ⟨rt, p, sz, off, mm, dev, subs⟩ := r
  simp only [Region.region_type] at hrt
  simp only [Region.mem_mapping] at hmm
  simp only [Region.size] at hsz
  subst hrt hmm hsz
  unfold Region.write
  rw [check_valid_offset_eq]
  simp only [Region.size]
  rw [if_pos (show a + s.length < U64_BOUND ∧ a + s.length ≤ mem.length
    from ⟨by omega, by omega⟩)]
  simp only [Option.getD_some, lt_irrefl, if_false, List.take_length,
    Except.bind]
  unfold Region.read
  rw [check_valid_offset_eq]
  simp only [Region.size]
  rw [if_pos (show a + s.length < U64_BOUND ∧ a + s.length ≤ mem.length
    from ⟨by omega, by omega⟩)]
  simp only [Option.getD_some]
  have hdrop : ((mem.take a ++ (s ++ mem.drop (a + s.length))).drop a) =
      s ++ mem.drop (a + s.length) :=
    List.drop_left' (by rw [List.length_take]; omega)
  rw [List.append_assoc, hdrop, List.take_left' rfl]

/-- C3 witness: scenario S1, the 1024-byte RAM region, writing 24 bytes
of value 91 at offset 1000 and reading them back. -/
theorem ram_write_read_round_trip_witness :
    (s1ram.write (List.replicate 24 91) 0 1000
      (List.replicate 24 91).length).bind
      (fun r2 => r2.read 0 1000 (List.replicate 24 91).length) =
      .ok (List.replicate 24 91) :=
  ram_write_read_round_trip s1ram (List.replicate 1024 0)
    (List.replicate 24 91) 1000 rfl rfl
    (by simp only [s1ram_size, List.length_replicate])
    (by simp only [List.length_replicate]; norm_num)
    (by simp only [List.length_replicate]; norm_num [U64_BOUND])

theorem remove_first_none_iff (c : Region) (l : List Region) :
    Region.remove_first c l = none ↔
      ∀ s ∈ l, Region.region_eq c s = false := by
  induction l with
  | nil => simp [Region.remove_first]
  | cons s rest ih =>
    unfold Region.remove_first
    by_cases h : Region.region_eq c s
    · simp [h]
    · simp only [Bool.not_eq_true] at h
      simp [h, ih]

theorem remove_first_countP (c : Region) (l : List Region) :
    ∀ l2, Region.remove_first c l = some l2 →
      l.countP (Region.region_eq c) =
        l2.countP (Region.region_eq c) + 1 := by
  induction l with
  | nil => intro l2 h; simp [Region.remove_first] at h
  | cons s rest ih =>
    intro l2 h
    unfold Region.remove_first at h
    by_cases hc : Region.region_eq c s
    · rw [if_pos hc] at h
      injection h with h
      subst h
      simp [List.countP_cons, hc]
    · rw [if_neg hc] at h
      cases hr : Region.remove_first c rest with
      | none => rw [hr] at h; simp at h
      | some l3 =>
        rw [hr] at h
        simp only [Option.map_some'] at h
        injection h with h
        subst h
        simp only [List.countP_cons, hc, if_false, Bool.false_eq_true,
          ih l3 hr]

theorem subregions_with_subregions (r : Region) (l : List Region) :
    (r.with_subregions l).subregions = l := by
  obtain ⟨rt, p, s, o, m, d, sl⟩ := r
  rfl

/-- C6: region equality compares exactly the quadruple (priority, type,
offset, size); `delete_subregion` fails with the no-matched-region error
precisely when no current sub-region is equal to the child under this
identity, a successful deletion removes exactly one matching entry, and
when the child matched a single entry a second deletion of the same child
fails. -/
theorem delete_subregion_spec (r child : Region) :
    (∀ s, Region.region_eq child s = true ↔
      (child.priority = s.priority ∧ child.region_type = s.region_type ∧
        child.offset = s.offset ∧ child.size = s.size)) ∧
    (r.delete_subregion child = .error .NoMatchedRegion ↔
      ∀ s ∈ r.subregions, Region.region_eq child s = false) ∧
    (∀ r2, r.delete_subregion child = .ok r2 →
      r.subregions.countP (Region.region_eq child) =
        r2.subregions.countP (Region.region_eq child) + 1) ∧
    (∀ r2, r.delete_subregion child = .ok r2 →
      r.subregions.countP (Region.region_eq child) = 1 →
      r2.delete_subregion child = .error .NoMatchedRegion) := by
  refine ⟨?_, ?_, ?_, ?_⟩
  · intro s
    unfold Region.region_eq
    simp [Bool.and_eq_true, beq_iff_eq, and_assoc]
  · unfold Region.delete_subregion
    cases h : Region.remove_first child r.subregions with
    | none =>
      simp only [h]
      simpa using (remove_first_none_iff child r.subregions).mp h
    | some l =>
      simp only [h]
      constructor
      · intro hh
        exact absurd hh (by simp)
      · intro hall
        have hn := (remove_first_none_iff child r.subregions).mpr hall
        rw [hn] at h
        cases h
  · intro r2 hok
    unfold Region.delete_subregion at hok
    cases h : Region.remove_first child r.subregions with
    | none =>
      simp only [h] at hok
      simp at hok
    | some l =>
      simp only [h] at hok
      injection hok with hok
      have hl := remove_first_countP child r.subregions l h
      rw [← hok, subregions_with_subregions]
      exact hl
  · intro r2 hok hcount
    unfold Region.delete_subregion at hok ⊢
    cases h : Region.remove_first child r.subregions with
    | none =>
      simp only [h] at hok
      simp at hok
    | some l =>
      simp only [h] at hok
      injection hok with hok
      have hl := remove_first_countP child r.subregions l h
      have hsub : r2.subregions = l := by
        rw [← hok, subregions_with_subregions]
      have hz : l.countP (Region.region_eq child) = 0 := by omega
      have hall : ∀ s ∈ r2.subregions, Region.region_eq child s = false := by
        rw [hsub]
        intro s hs
        simpa using List.countP_eq_zero.mp hz s hs
      rw [(remove_first_none_iff child r2.subregions).mpr hall]

/-- C6 witness: in scenario S5, deleting the priority-10 sibling once
succeeds and deleting it a second time fails with the no-matched-region
error. -/
theorem delete_subregion_spec_witness :
    c6cont.delete_subregion (c6io2.set_offset 20) = .ok c6after ∧
    c6after.delete_subregion (c6io2.set_offset 20) =
      .error .NoMatchedRegion :=
  ⟨rfl,
   (delete_subregion_spec c6cont (c6io2.set_offset 20)).2.2.2 c6after rfl
     (by decide)⟩

theorem mem_insert_by_priority (c t : Region) (l : List Region) :
    t ∈ Region.insert_by_priority c l ↔ t = c ∨ t ∈ l := by
  induction l with
  | nil => simp [Region.insert_by_priority]
  | cons s rest ih =>
    unfold Region.insert_by_priority
    by_cases h : s.priority ≤ c.priority
    · simp [h]
    · simp [h, ih]
      tauto

theorem insert_by_priority_sorted (c : Region) (l : List Region)
    (hs : SortedDesc l) : SortedDesc (Region.insert_by_priority c l) := by
  induction l with
  | nil => simp [Region.insert_by_priority, SortedDesc]
  | cons s rest ih =>
    rw [SortedDesc, List.pairwise_cons] at hs
    obtain ⟨h1, h2⟩ := hs
    unfold Region.insert_by_priority
    by_cases h : s.priority ≤ c.priority
    · rw [if_pos h]
      rw [SortedDesc, List.pairwise_cons]
      refine ⟨?_, ?_⟩
      · intro t ht
        rcases List.mem_cons.mp ht with rfl | ht
        · exact h
        · exact le_trans (h1 t ht) h
      · rw [List.pairwise_cons]
        exact ⟨h1, h2⟩
    · rw [if_neg h]
      rw [SortedDesc, List.pairwise_cons]
      refine ⟨?_, ih h2⟩
      intro t ht
      rcases (mem_insert_by_priority c t rest).mp ht with rfl | ht
      · omega
      · exact h1 t ht

theorem insert_by_priority_split (c : Region) (l : List Region)
    (hs : SortedDesc l) :
    ∃ l1 l2, l = l1 ++ l2 ∧
      Region.insert_by_priority c l = l1 ++ c :: l2 ∧
      (∀ s ∈ l1, c.priority < s.priority) ∧
      (∀ s ∈ l2, s.priority ≤ c.priority) := by
  induction l with
  | nil =>
    exact ⟨[], [], rfl, rfl, by simp, by simp⟩
  | cons s rest ih =>
    rw [SortedDesc, List.pairwise_cons] at hs
    obtain ⟨h1, h2⟩ := hs
    unfold Region.insert_by_priority
    by_cases h : s.priority ≤ c.priority
    · refine ⟨[], s :: rest, rfl, by rw [if_pos h]; rfl, by simp, ?_⟩
      intro t ht
      rcases List.mem_cons.mp ht with rfl | ht
      · exact h
      · exact le_trans (h1 t ht) h
    · obtain ⟨l1, l2, heq, hins, hl1, hl2⟩ := ih h2
      refine ⟨s :: l1, l2, by rw [heq]; rfl, ?_, ?_, hl2⟩
      · rw [if_neg h, hins]
        rfl
      · intro t ht
        rcases List.mem_cons.mp ht with rfl | ht
        · omega
        · exact hl1 t ht

theorem add_subregion_ok_subregions (r child : Region) (off : Nat)
    (r2 : Region) (h : r.add_subregion child off = .ok r2) :
    r2.subregions =
      Region.insert_by_priority (child.set_offset off) r.subregions := by
  unfold Region.add_subregion at h
  split_ifs at h
  cases hc : r.check_valid_offset off child.size with
  | error e => rw [hc] at h; cases h
  | ok u =>
    rw [hc] at h
    injection h with h
    rw [← h, subregions_with_subregions]

/-- C4, corrected: every successful insertion keeps the sibling list
sorted by descending priority, and the new child lands before every
incumbent whose priority does not exceed its own — so among equal
priorities the later-inserted sibling comes first (reverse insertion
order), not insertion order as claimed. -/
theorem add_subregion_priority_order :
    (∀ (n : Nat) (reqs : List (Region × Nat)) (r2 : Region),
      (Region.init_container_region n).add_all reqs = .ok r2 →
      SortedDesc r2.subregions) ∧
    (∀ (r child : Region) (off : Nat) (r2 : Region),
      r.add_subregion child off = .ok r2 → SortedDesc r.subregions →
      SortedDesc r2.subregions ∧
      ∃ l1 l2, r.subregions = l1 ++ l2 ∧
        r2.subregions = l1 ++ child.set_offset off :: l2 ∧
        (∀ s ∈ l1, child.priority < s.priority) ∧
        (∀ s ∈ l2, s.priority ≤ child.priority)) := by
  have hstep : ∀ (r child : Region) (off : Nat) (r2 : Region),
      r.add_subregion child off = .ok r2 → SortedDesc r.subregions →
      SortedDesc r2.subregions := by
    intro r child off r2 h hs
    rw [add_subregion_ok_subregions r child off r2 h]
    exact insert_by_priority_sorted _ _ hs
  have hall : ∀ (reqs : List (Region × Nat)) (r r2 : Region),
      SortedDesc r.subregions → r.add_all reqs = .ok r2 →
      SortedDesc r2.subregions := by
    intro reqs
    induction reqs with
    | nil =>
      intro r r2 hs h
      unfold Region.add_all at h
      injection h with h
      rw [← h]
      exact hs
    | cons q rest ih =>
      intro r r2 hs h
      obtain ⟨c, off⟩ := q
      unfold Region.add_all at h
      cases hstep2 : r.add_subregion c off with
      | error e => rw [hstep2] at h; cases h
      | ok rmid =>
        rw [hstep2] at h
        exact ih rmid r2 (hstep r c off rmid hstep2 hs) h
  refine ⟨?_, ?_⟩
  · intro n reqs r2 h
    refine hall reqs _ r2 ?_ h
    simp [Region.init_container_region, Region.init_region_internal,
      Region.subregions, SortedDesc]
  · intro r child off r2 h hs
    refine ⟨hstep r child off r2 h hs, ?_⟩
    obtain ⟨l1, l2, heq, hins, hl1, hl2⟩ :=
      insert_by_priority_split (child.set_offset off) r.subregions hs
    have hpri : (child.set_offset off).priority = child.priority := by
      obtain ⟨rt, p, s, o, m, d, sl⟩ := child
      rfl
    rw [hpri] at hl1 hl2
    exact ⟨l1, l2, heq,
      by rw [add_subregion_ok_subregions r child off r2 h, hins], hl1, hl2⟩

/-- C4 counterexample: two MMIO siblings of equal priority 0, sizes 8
then 16, inserted in that order into a 1024-byte container; both calls
succeed yet the resulting list is [size 16, size 8], the reverse of
insertion order. -/
theorem add_subregion_tie_counterexample :
    c4io1.priority = c4io2.priority ∧
    (Region.init_container_region 1024).add_subregion c4io1 0 = .ok c4r1 ∧
    c4r1.add_subregion c4io2 20 = .ok c4r2 ∧
    c4r2.subregions.map Region.size = [16, 8] ∧
    ¬c4r2.subregions.map Region.size = [8, 16] :=
  ⟨rfl, rfl, rfl, rfl, by decide⟩

/-- C4 witness: the sequence lemma applied to the two concrete
insertions of the counterexample scenario. -/
theorem add_subregion_priority_order_witness : SortedDesc c4r2.subregions :=
  add_subregion_priority_order.1 1024 [(c4io1, 0), (c4io2, 20)] c4r2 rfl

/-- C2: for the S3 tree (8000-byte container A holding MMIO C of size
6000 and priority 1 at offset 0, and container B of size 4000 and
priority 2 at offset 2000, holding MMIO D of size 1000 at offset 0 and
MMIO E of size 1000 at offset 2000), the flat view over the full range of
A is exactly the five ranges [0,2000) of C, [2000,3000) of D,
[3000,4000) of C, [4000,5000) of E and [5000,6000) of C. -/
theorem s3_generate_flatview :
    s3A.generate_flatview 0 ⟨0, 8000⟩ = .ok s3_expected ∧
    s3_expected.length = 5 :=
  ⟨rfl, rfl⟩

/-- C7: a visited region whose absolute range does not intersect the clip
window aborts rendering with the no-intersection ("region exceeds")
error: directly in `render_terminate_region` and `render_region_pass`,
and the error propagates through the sibling loop of a container and
through `generate_flatview` (which is the renderer started on an empty
flat view). -/
theorem render_no_intersection_spec :
    (∀ (r : Region) (base : Nat) (ar : AddressRange) (fv : List FlatRange),
      AddressRange.find_intersection ⟨base + r.offset, r.size⟩ ar = none →
      r.render_region_pass base ar fv =
        .error (.NoIntersection (base + r.offset)) ∧
      r.render_terminate_region base ar fv =
        .error (.NoIntersection (base + r.offset))) ∧
    (∀ (r : Region) (base : Nat) (ar : AddressRange),
      r.generate_flatview base ar = r.render_region_pass base ar []) ∧
    (∀ (l1 : List Region) (c : Region) (l2 : List Region) (base : Nat)
      (ar : AddressRange) (fv fv1 : List FlatRange) (e : AsError),
      Region.render_subregions l1 base ar fv = .ok fv1 →
      c.render_region_pass base ar fv1 = .error e →
      Region.render_subregions (l1 ++ c :: l2) base ar fv = .error e) ∧
    (∀ (r : Region) (base : Nat) (ar : AddressRange) (fv : List FlatRange)
      (intersect : AddressRange) (e : AsError),
      r.region_type = .Container →
      AddressRange.find_intersection ⟨base + r.offset, r.size⟩ ar =
        some intersect →
      Region.render_subregions r.subregions (base + r.offset) intersect fv =
        .error e →
      r.render_region_pass base ar fv = .error e) := by
  have hterm : ∀ (r : Region) (base : Nat) (ar : AddressRange)
      (fv : List FlatRange),
      AddressRange.find_intersection ⟨base + r.offset, r.size⟩ ar = none →
      r.render_terminate_region base ar fv =
        .error (.NoIntersection (base + r.offset)) := by
    intro r base ar fv h
    unfold Region.render_terminate_region
    simp [h]
  refine ⟨?_, ?_, ?_, ?_⟩
  · intro r base ar fv h
    refine ⟨?_, hterm r base ar fv h⟩
    obtain ⟨rt, p, sz, off, mm, dev, subs⟩ := r
    simp only [Region.offset, Region.size] at h ⊢
    cases rt with
    | Container =>
      unfold Region.render_region_pass
      rw [h]
    | Ram =>
      unfold Region.render_region_pass
      have := hterm (.mk .Ram p sz off mm dev subs) base ar fv
        (by simpa [Region.offset, Region.size] using h)
      simpa [Region.offset] using this
    | Io =>
      unfold Region.render_region_pass
      have := hterm (.mk .Io p sz off mm dev subs) base ar fv
        (by simpa [Region.offset, Region.size] using h)
      simpa [Region.offset] using this
  · intro r base ar
    obtain ⟨rt, p, sz, off, mm, dev, subs⟩ := r
    cases rt with
    | Container =>
      unfold Region.generate_flatview Region.render_region_pass
      rfl
    | Ram =>
      unfold Region.generate_flatview Region.render_region_pass
      rfl
    | Io =>
      unfold Region.generate_flatview Region.render_region_pass
      rfl
  · intro l1
    induction l1 with
    | nil =>
      intro c l2 base ar fv fv1 e h1 h2
      unfold Region.render_subregions at h1
      injection h1 with h1
      subst h1
      rw [List.nil_append]
      simp only [Region.render_subregions, h2]
    | cons s rest ih =>
      intro c l2 base ar fv fv1 e h1 h2
      simp only [Region.render_subregions] at h1
      cases hs : s.render_region_pass base ar fv with
      | error e2 => rw [hs] at h1; simp at h1
      | ok fv2 =>
        rw [hs] at h1
        simp only [] at h1
        have hrest := ih c l2 base ar fv2 fv1 e h1 h2
        rw [List.cons_append]
        simp only [Region.render_subregions, hs, hrest]
  · intro r base ar fv intersect e hty hfi hsubs
    obtain ⟨rt, p, sz, off, mm, dev, subs⟩ := r
    simp only [Region.region_type] at hty
    subst hty
    simp only [Region.offset, Region.size] at hfi
    simp only [Region.subregions, Region.offset] at hsubs
    unfold Region.render_region_pass
    rw [hfi]
    dsimp only
    exact hsubs

/-- C7 witness: a 16-byte MMIO leaf rendered against the disjoint window
[100, 150) makes the whole generation fail with the no-intersection
error. -/
theorem render_no_intersection_spec_witness :
    (Region.init_io_region 16 devNull).generate_flatview 0 ⟨100, 50⟩ =
      .error (.NoIntersection 0) := by
  have h := render_no_intersection_spec
  rw [h.2.1]
  exact (h.1 (Region.init_io_region 16 devNull) 0 ⟨100, 50⟩ [] (by decide)).1

theorem chained_cons (lb : Nat) (fr : FlatRange) (rest : List FlatRange) :
    Chained lb (fr :: rest) ↔
      lb ≤ fr.addr_range.base ∧ 0 < fr.addr_range.size ∧
        Chained fr.addr_range.end_addr rest :=
  Iff.rfl

theorem find_intersection_some_size (a b i : AddressRange)
    (h : AddressRange.find_intersection a b = some i) :
    0 < i.size ∧ a.base ≤ i.base := by
  unfold AddressRange.find_intersection at h
  by_cases hlt : max a.base b.base < min a.end_addr b.end_addr
  · rw [if_pos hlt] at h
    injection h with h
    subst h
    constructor
    · show 0 < min a.end_addr b.end_addr - max a.base b.base
      omega
    · show a.base ≤ max a.base b.base
      exact le_max_left _ _
  · rw [if_neg hlt] at h
    cases h

theorem find_intersection_none_of_le (a b : AddressRange)
    (h : a.end_addr ≤ b.base) :
    AddressRange.find_intersection a b = none ∧
    AddressRange.find_intersection b a = none := by
  unfold AddressRange.end_addr at h
  constructor <;>
    (unfold AddressRange.find_intersection AddressRange.end_addr
     rw [if_neg (by omega)])

theorem merge_chained (owner : Region) (fv : List FlatRange) :
    ∀ (lb start oir remain : Nat),
      Chained lb fv → lb ≤ start → 0 < remain →
      Chained lb (merge_flat_range owner start oir remain fv) := by
  induction fv with
  | nil =>
    intro lb start oir remain hch hle hr
    unfold merge_flat_range
    rw [if_neg (by omega)]
    exact ⟨hle, hr, trivial⟩
  | cons fr rest ih =>
    intro lb start oir remain hch hle hr
    obtain ⟨h1, h2, h3⟩ := hch
    unfold merge_flat_range
    by_cases hskip : fr.addr_range.end_addr ≤ start
    · rw [if_pos hskip]
      exact ⟨h1, h2, ih _ _ oir _ h3 hskip hr⟩
    · rw [if_neg hskip]
      dsimp only
      by_cases hgap : start < fr.addr_range.base
      · rw [if_pos hgap]
        by_cases hz : remain - min (fr.addr_range.end_addr - start) remain = 0
        · rw [if_pos hz]
          refine ⟨hle, ?_, ?_, h2, h3⟩
          · show 0 < min remain (fr.addr_range.base - start)
            omega
          · show start + min remain (fr.addr_range.base - start) ≤
              fr.addr_range.base
            omega
        · rw [if_neg hz]
          refine ⟨hle, ?_, ?_, h2, ?_⟩
          · show 0 < min remain (fr.addr_range.base - start)
            omega
          · show start + min remain (fr.addr_range.base - start) ≤
              fr.addr_range.base
            omega
          · refine ih _ _ _ _ h3 ?_ ?_
            · show fr.addr_range.end_addr ≤
                start + min (fr.addr_range.end_addr - start) remain
              omega
            · show 0 < remain - min (fr.addr_range.end_addr - start) remain
              omega
      · rw [if_neg hgap]
        by_cases hz : remain - min (fr.addr_range.end_addr - start) remain = 0
        · rw [if_pos hz]
          exact ⟨h1, h2, h3⟩
        · rw [if_neg hz]
          refine ⟨h1, h2, ih _ _ _ _ h3 ?_ ?_⟩
          · show fr.addr_range.end_addr ≤
              start + min (fr.addr_range.end_addr - start) remain
            omega
          · show 0 < remain - min (fr.addr_range.end_addr - start) remain
            omega

theorem render_terminate_chained (r : Region) (base : Nat)
    (ar : AddressRange) (fv fv2 : List FlatRange)
    (h : r.render_terminate_region base ar fv = .ok fv2)
    (hch : Chained 0 fv) : Chained 0 fv2 := by
  unfold Region.render_terminate_region at h
  dsimp only at h
  cases hfi : AddressRange.find_intersection ⟨base + r.offset, r.size⟩ ar with
  | none => rw [hfi] at h; cases h
  | some i =>
    rw [hfi] at h
    injection h with h
    rw [← h]
    exact merge_chained r fv 0 i.base (i.base - (base + r.offset)) i.size hch
      (Nat.zero_le _) (find_intersection_some_size _ _ _ hfi).1

theorem render_subregions_chained (b : Nat) (i : AddressRange)
    (cs : List Region)
    (hpres : ∀ c ∈ cs, ∀ (fv fv2 : List FlatRange),
      c.render_region_pass b i fv = .ok fv2 → Chained 0 fv → Chained 0 fv2) :
    ∀ (fv fv2 : List FlatRange),
      Region.render_subregions cs b i fv = .ok fv2 →
      Chained 0 fv → Chained 0 fv2 := by
  induction cs with
  | nil =>
    intro fv fv2 h hch
    unfold Region.render_subregions at h
    injection h with h
    rw [← h]
    exact hch
  | cons c rest ih =>
    intro fv fv2 h hch
    simp only [Region.render_subregions] at h
    cases hc : c.render_region_pass b i fv with
    | error e => rw [hc] at h; simp at h
    | ok fvm =>
      rw [hc] at h
      simp only [] at h
      have hm := hpres c (List.mem_cons_self c rest) fv fvm hc hch
      exact ih (fun d hd => hpres d (List.mem_cons_of_mem c hd)) fvm fv2 h hm

theorem region_sizeOf_pos (r : Region) : 0 < sizeOf r := by
  obtain ⟨rt, p, sz, off, mm, dev, subs⟩ := r
  simp [Region.mk.sizeOf_spec]

theorem render_region_pass_chained_aux (n : Nat) :
    ∀ (r : Region), sizeOf r ≤ n →
      ∀ (base : Nat) (ar : AddressRange) (fv fv2 : List FlatRange),
        r.render_region_pass base ar fv = .ok fv2 →
        Chained 0 fv → Chained 0 fv2 := by
  induction n with
  | zero =>
    intro r hsz
    exact absurd hsz (by have := region_sizeOf_pos r; omega)
  | succ n ih =>
    intro r hsz base ar fv fv2 h hch
    obtain ⟨rt, p, sz, off, mm, dev, subs⟩ := r
    cases rt with
    | Container =>
      unfold Region.render_region_pass at h
      cases hfi : AddressRange.find_intersection ⟨base + off, sz⟩ ar with
      | none => rw [hfi] at h; simp at h
      | some i =>
        rw [hfi] at h
        simp only [] at h
        have hsubs : ∀ c ∈ subs, sizeOf c ≤ n := by
          intro c hc
          have h1 := List.sizeOf_lt_of_mem hc
          have h2 : sizeOf (Region.mk RegionType.Container p sz off mm dev
            subs) = 1 + sizeOf RegionType.Container + sizeOf p + sizeOf sz +
              sizeOf off + sizeOf mm + sizeOf dev + sizeOf subs := by
            simp [Region.mk.sizeOf_spec]
          omega
        exact render_subregions_chained (base + off) i subs
          (fun c hc fva fvb hr hcha =>
            ih c (hsubs c hc) (base + off) i fva fvb hr hcha) fv fv2 h hch
    | Ram =>
      unfold Region.render_region_pass at h
      simp only [] at h
      exact render_terminate_chained _ base ar fv fv2 h hch
    | Io =>
      unfold Region.render_region_pass at h
      simp only [] at h
      exact render_terminate_chained _ base ar fv fv2 h hch

theorem generate_flatview_chained (r : Region) (base : Nat)
    (ar : AddressRange) (fv : List FlatRange)
    (h : r.generate_flatview base ar = .ok fv) : Chained 0 fv := by
  unfold Region.generate_flatview at h
  cases hrt : r.region_type with
  | Container =>
    rw [hrt] at h
    simp only [] at h
    exact render_region_pass_chained_aux (sizeOf r) r le_rfl base ar [] fv h
      trivial
  | Ram =>
    rw [hrt] at h
    simp only [] at h
    exact render_terminate_chained r base ar [] fv h trivial
  | Io =>
    rw [hrt] at h
    simp only [] at h
    exact render_terminate_chained r base ar [] fv h trivial

theorem chained_le_get (l : List FlatRange) :
    ∀ (lb : Nat), Chained lb l →
      ∀ (j : Nat) (hj : j < l.length), lb ≤ (l.get ⟨j, hj⟩).addr_range.base := by
  induction l with
  | nil => intro lb _ j hj; cases hj
  | cons fr rest ih =>
    intro lb hch j hj
    obtain ⟨h1, h2, h3⟩ := hch
    cases j with
    | zero => exact h1
    | succ j =>
      have := ih fr.addr_range.end_addr h3 j (Nat.lt_of_succ_lt_succ hj)
      have hle : lb ≤ fr.addr_range.end_addr := by
        unfold AddressRange.end_addr
        omega
      exact le_trans hle this

theorem chained_get_pairs (l : List FlatRange) :
    ∀ (lb : Nat), Chained lb l →
      ∀ (i j : Nat) (hi : i < l.length) (hj : j < l.length), i < j →
        (l.get ⟨i, hi⟩).addr_range.end_addr ≤
          (l.get ⟨j, hj⟩).addr_range.base ∧
        (l.get ⟨i, hi⟩).addr_range.base < (l.get ⟨j, hj⟩).addr_range.base := by
  induction l with
  | nil => intro lb _ i j hi; cases hi
  | cons fr rest ih =>
    intro lb hch i j hi hj hij
    obtain ⟨h1, h2, h3⟩ := hch
    cases i with
    | zero =>
      cases j with
      | zero => cases hij
      | succ j =>
        have hle := chained_le_get rest fr.addr_range.end_addr h3 j
          (Nat.lt_of_succ_lt_succ hj)
        have hget0 : (fr :: rest).get ⟨0, hi⟩ = fr := rfl
        have hgetj : (fr :: rest).get ⟨j + 1, hj⟩ =
            rest.get ⟨j, Nat.lt_of_succ_lt_succ hj⟩ := rfl
        rw [hget0, hgetj]
        refine ⟨hle, ?_⟩
        unfold AddressRange.end_addr at hle
        omega
    | succ i =>
      cases j with
      | zero => cases hij
      | succ j =>
        exact ih fr.addr_range.end_addr h3 i j (Nat.lt_of_succ_lt_succ hi)
          (Nat.lt_of_succ_lt_succ hj) (Nat.lt_of_succ_lt_succ hij)

/-- C1: whenever `generate_flatview` succeeds, the produced flat view is
strictly sorted by range base, and any two distinct entries have empty
intersection (in both orientations of `find_intersection`). -/
theorem generate_flatview_sorted_disjoint (r : Region) (base : Nat)
    (ar : AddressRange) (fv : List FlatRange)
    (hok : r.generate_flatview base ar = .ok fv) :
    ∀ (i j : Nat) (hi : i < fv.length) (hj : j < fv.length), i < j →
      (fv.get ⟨i, hi⟩).addr_range.base < (fv.get ⟨j, hj⟩).addr_range.base ∧
      AddressRange.find_intersection (fv.get ⟨i, hi⟩).addr_range
        (fv.get ⟨j, hj⟩).addr_range = none ∧
      AddressRange.find_intersection (fv.get ⟨j, hj⟩).addr_range
        (fv.get ⟨i, hi⟩).addr_range = none := by
  intro i j hi hj hij
  have hch := generate_flatview_chained r base ar fv hok
  have hp := chained_get_pairs fv 0 hch i j hi hj hij
  have hnone := find_intersection_none_of_le _ _ hp.1
  exact ⟨hp.2, hnone.1, hnone.2⟩

/-- C1 witness: the theorem applied to the S3 scenario flat view at the
first two entries. -/
theorem generate_flatview_sorted_disjoint_witness :
    (s3_expected.get ⟨0, by decide⟩).addr_range.base <
      (s3_expected.get ⟨1, by decide⟩).addr_range.base ∧
    AddressRange.find_intersection
      (s3_expected.get ⟨0, by decide⟩).addr_range
      (s3_expected.get ⟨1, by decide⟩).addr_range = none ∧
    AddressRange.find_intersection
      (s3_expected.get ⟨1, by decide⟩).addr_range
      (s3_expected.get ⟨0, by decide⟩).addr_range = none :=
  generate_flatview_sorted_disjoint s3A 0 ⟨0, 8000⟩ s3_expected rfl
    0 1 (by decide) (by decide) (by decide)
